import Mathlib

/-!
Verification of the team-formation program (src/main.py).

The development embeds the data model (Person, Task) and the team-building
algorithm (Task.make_teams, lines 100-179 of main.py) as executable Lean
definitions, translated line by line from the Python source, and proves the
testable properties stated in the specification.

Modelling conventions:
  - Python strings are String, Python numbers (salaries) are Int.
  - Python sets of skills are Finset String; the source only observes sets
    through intersection, union, subset, equality and emptiness tests, all of
    which are order insensitive, so Finset is an exact model.
  - Python list.sort is a stable sort with respect to the comparison key
    (Person.__lt__, which compares names, for team.sort(); the summed salary
    for the final teams.sort(key=...)).  A stable sort for a total preorder
    has a unique result, so Mathlib List.insertionSort with the corresponding
    non-strict relation (which is also stable) is an exact model.
  - Person equality in Python (__eq__) compares name, salary and skills
    structurally; DecidableEq on the Person structure matches it.
-/

namespace TeamAssign

/-- Person (main.py lines 188-286): name, salary, skills.
Python __eq__ compares all three fields, which is DecidableEq here. -/
structure Person where
  name : String
  salary : Int
  skills : List String
deriving DecidableEq

/-- Lexicographic non-strict comparison of character lists: the reflexive
closure of the strict lexicographic code-point order, which is how Python
compares the name strings in Person.__lt__ (main.py lines 276-277). -/
def charListLE : List Char → List Char → Bool
  | [], _ => true
  | _ :: _, [] => false
  | a :: as, b :: bs =>
    if a < b then true else if b < a then false else charListLE as bs

/-- Comparison used by team.sort() in main.py lines 132 and 172:
Person.__lt__ compares names (lines 276-277), so the sort key is the name,
compared lexicographically by code point. -/
def nameLE (a b : Person) : Prop :=
  charListLE a.name.data b.name.data = true

instance : DecidableRel nameLE := fun a b =>
  inferInstanceAs (Decidable (charListLE a.name.data b.name.data = true))

/-- team.sort() of main.py lines 132 and 172: stable sort of the team by
member name. -/
def sortByName (t : List Person) : List Person :=
  t.insertionSort nameLE

/-- Team price: sum([person.salary for person in team]), the sort key of
main.py line 178 and the price of line 89. -/
def teamCost (t : List Person) : Int :=
  (t.map Person.salary).sum

/-- Comparison induced by the key of teams.sort(key=...) at main.py line 178. -/
def costLE (a b : List Person) : Prop :=
  teamCost a ≤ teamCost b

instance : DecidableRel costLE := fun a b =>
  inferInstanceAs (Decidable (teamCost a ≤ teamCost b))

instance : IsTotal (List Person) costLE :=
  ⟨fun a b => le_total (teamCost a) (teamCost b)⟩

instance : IsTrans (List Person) costLE :=
  ⟨fun _ _ _ h h' => le_trans h h'⟩

/-- teams.sort(key=lambda team: sum(salaries)) of main.py line 178: stable
sort of the team list by total salary. -/
def sortBySalary (ts : List (List Person)) : List (List Person) :=
  ts.insertionSort costLE

/-- The relevant skills of a person: set(p.skills) & set(self.skills), as in
main.py lines 106, 124, 141, 161, 169. -/
def relSkills (S : Finset String) (p : Person) : Finset String :=
  p.skills.toFinset ∩ S

/-- The covered-skill set of a team: the iterated update
ts.update(set(p.skills) & set(self.skills)) over the members, starting from
set(), as in main.py lines 122-124, 157-161 and 167-169. -/
def coverOf (S : Finset String) (team : List Person) : Finset String :=
  team.foldl (fun ts p => ts ∪ relSkills S p) ∅

/-- people_have_skills of main.py line 106: the people whose skill set meets
the required set (a non-empty intersection is truthy in Python). -/
def candidates (skills : List String) (people : List Person) : List Person :=
  people.filter (fun p => decide (skills.toFinset ∩ p.skills.toFinset ≠ ∅))

/-- First-occurrence deduplication, the key order of the dict comprehension
skills_count = \x7bs: [] for s in self.skills\x7d at main.py line 110 (a Python
dict keeps the first insertion position of each key). -/
def firstDedupAux (seen : List String) : List String → List String
  | [] => []
  | s :: rest =>
    if s ∈ seen then firstDedupAux seen rest
    else s :: firstDedupAux (s :: seen) rest

def firstDedup (l : List String) : List String :=
  firstDedupAux [] l

/-- Turns the per-skill possessor list into the sole possessor, when there is
exactly one (main.py line 116, len(count) == 1 and count[0]). -/
def soleOf (l : List Person) : Option Person :=
  match l with
  | [p] => some p
  | _ => none

/-- The skills_count bucket of one required skill, filled by the double loop
of main.py lines 111-114: the outer loop runs over the filtered candidates,
the inner loop over the elements of self.skills (occurrences included), so a
candidate possessing the skill is appended once per occurrence of that skill
in the task skill list — replicate (skills.count s) p in candidate order. -/
def skillBucket (skills : List String) (cands : List Person) (s : String) :
    List Person :=
  cands.flatMap
    (fun p => if s ∈ p.skills then List.replicate (skills.count s) p else [])

/-- people_with_unique_skills of main.py lines 110-116: for each required
skill (in dict key order, each distinct skill once), the bucket filled by the
double loop; buckets of length one contribute their entry.  A bucket has
length one exactly when the skill occurs once in the task skill list and has
exactly one possessor among the filtered candidates; a person appears once
per such skill. -/
def soleOwners (skills : List String) (cands : List Person) : List Person :=
  (firstDedup skills).filterMap (fun s => soleOf (skillBucket skills cands s))

/-- init(curr) of main.py lines 118-125: copy the unique-skill people, append
the current candidate when not already present (Python "in" uses structural
equality), and compute the covered-skill set of the resulting team. -/
def initSeed (S : Finset String) (uniques : List Person) (curr : Person) :
    List Person × Finset String :=
  let t := if curr ∈ uniques then uniques else uniques ++ [curr]
  (t, coverOf S t)

/-- The teams.append guarded by "if team not in teams" of main.py
lines 133-134, 145-146 and 173-174. -/
def addUnique (teams : List (List Person)) (t : List Person) :
    List (List Person) :=
  if t ∈ teams then teams else teams ++ [t]

/-- The removed list of main.py lines 155-163: the members whose removal,
each taken singly from the full team, keeps the covered set equal to the
required set (teams_skills equals set(self.skills) at this point).  The first
argument accumulates the members before position i, the second is the members
from position i onward. -/
def removable (S : Finset String) : List Person → List Person → List Person
  | _, [] => []
  | pre, p :: post =>
    if coverOf S (pre ++ post) = S then p :: removable S (pre ++ [p]) post
    else removable S (pre ++ [p]) post

/-- The removal loop of main.py lines 165-171: remove each marked member (the
first structurally equal occurrence, as list.remove does), then re-append it
at the end when the remaining team no longer covers the required set. -/
def pruneLoop (S : Finset String) : List Person → List Person → List Person
  | team, [] => team
  | team, r :: rs =>
    pruneLoop S
      (if coverOf S (team.erase r) ≠ S then team.erase r ++ [r]
       else team.erase r) rs

/-- Finalisation of a gathered team, main.py lines 154-172: redundancy
pruning followed by the in-place name sort. -/
def finalizeTeam (S : Finset String) (team : List Person) : List Person :=
  sortByName (pruneLoop S team (removable S [] team))

/-- The inner scan over people_have_skills, main.py lines 137-176.  State:
the remaining scan list, the working team, its covered-skill set and the
accumulated team list.  seedT and seedTs are the re-initialisation values
init(current_person) used at line 175; the guard at line 138 skips the
current candidate and present members; line 143-147 handles a candidate whose
relevant skills are the whole required set (append the singleton and break);
otherwise the candidate is added exactly when their relevant skills are not a
subset of the covered set (lines 149-151) and, when the covered set reaches
the required set (line 153), the team is finalised, recorded and the working
state is re-seeded (lines 154-176).  The source checks line 153
unconditionally; when no member was added the covered set is unchanged, so
splitting on the subset test first preserves the behaviour exactly. -/
def innerScan (S : Finset String) (curr : Person)
    (seedT : List Person) (seedTs : Finset String) :
    List Person → List Person → Finset String → List (List Person) →
      List (List Person)
  | [], _, _, teams => teams
  | o :: rest, team, ts, teams =>
    if o = curr ∨ o ∈ team then
      innerScan S curr seedT seedTs rest team ts teams
    else if relSkills S o = S then
      addUnique teams [o]
    else if relSkills S o ⊆ ts then
      if ts = S then
        innerScan S curr seedT seedTs rest seedT seedTs
          (addUnique teams (finalizeTeam S team))
      else
        innerScan S curr seedT seedTs rest team ts teams
    else
      if ts ∪ relSkills S o = S then
        innerScan S curr seedT seedTs rest seedT seedTs
          (addUnique teams (finalizeTeam S (team ++ [o])))
      else
        innerScan S curr seedT seedTs rest (team ++ [o]) (ts ∪ relSkills S o)
          teams

/-- One iteration of the outer loop of main.py lines 128-176: seed the
working team for current_person; when the seed already covers the required
set, sort it and record it (lines 131-135); otherwise run the inner scan over
the whole candidate list. -/
def processPerson (S : Finset String) (cands uniques : List Person)
    (teams : List (List Person)) (curr : Person) : List (List Person) :=
  let seed := initSeed S uniques curr
  if seed.2 = S then addUnique teams (sortByName seed.1)
  else innerScan S curr seed.1 seed.2 cands seed.1 seed.2 teams

/-- The team list accumulated by make_teams before the final cost sort
(main.py lines 106-176), in discovery order. -/
def rawTeams (skills : List String) (people : List Person) :
    List (List Person) :=
  let cands := candidates skills people
  let uniques := soleOwners skills cands
  cands.foldl (processPerson skills.toFinset cands uniques) []

/-- The full result of make_teams: the accumulated teams sorted ascending by
total salary (main.py line 178). -/
def makeTeamsList (skills : List String) (people : List Person) :
    List (List Person) :=
  sortBySalary (rawTeams skills people)

/-- Task (main.py lines 7-45): name, required skills, teams (initially
empty, filled by make_teams). -/
structure Task where
  name : String
  skills : List String
  teams : List (List Person)
deriving DecidableEq

/-- Task.make_teams as a function on the task (main.py lines 100-179): the
only field the method assigns is self.__teams (line 179). -/
def makeTeams (task : Task) (people : List Person) : Task :=
  Task.mk task.name task.skills (makeTeamsList task.skills people)

/-- The effect of calling task.make_teams(people) on the pair of the task and
the roster: the method body reads the roster and the Person objects but its
only store to non-local state is self.__teams = teams (main.py line 179); no
attribute of any Person is assigned and no element of the people list is
replaced, so the roster component is returned unchanged. -/
def runMakeTeams (st : Task × List Person) : Task × List Person :=
  (makeTeams st.1 st.2, st.2)

/-- The union of the skills of the members of a team (before intersecting
with the required set). -/
def teamSkills (t : List Person) : Finset String :=
  t.foldl (fun a p => a ∪ p.skills.toFinset) ∅

/-- The serialized shape of one team, main.py line 89: the member names in
stored order and the summed salary. -/
structure TeamDict where
  peoples : List String
  price : Int
deriving DecidableEq

/-- The serialized shape of one task, main.py lines 87-89. -/
structure TaskDict where
  name : String
  teams : List TeamDict
deriving DecidableEq

/-- Task.to_dict of main.py lines 87-89. -/
def toDict (t : Task) : TaskDict :=
  TaskDict.mk t.name
    (t.teams.map (fun team =>
      TeamDict.mk (team.map Person.name) (teamCost team)))

/-- The keyword-argument record passed to Person.__init__ (main.py
lines 210-218): each kwargs.get returns None when the key is missing, so
every field is optional. -/
structure PersonKw where
  name : Option String
  salary : Option Int
  skills : Option (List String)
deriving DecidableEq

/-- A Person as actually constructed by Person.__init__: the three private
fields hold whatever kwargs.get returned, possibly None. -/
structure RawPerson where
  name : Option String
  salary : Option Int
  skills : Option (List String)
deriving DecidableEq

/-- Person.__init__ of main.py lines 210-218: no validation, fields copied
verbatim from the kwargs record. -/
def personInit (kw : PersonKw) : RawPerson :=
  RawPerson.mk kw.name kw.salary kw.skills

/-- The keyword-argument record passed to Task.__init__ (main.py
lines 25-33). -/
structure TaskKw where
  name : Option String
  skills : Option (List String)
deriving DecidableEq

/-- A Task as actually constructed by Task.__init__: optional name and
skills, empty team list. -/
structure RawTask where
  name : Option String
  skills : Option (List String)
  teams : List (List RawPerson)
deriving DecidableEq

/-- Task.__init__ of main.py lines 25-33: no validation, teams starts
empty. -/
def taskInit (kw : TaskKw) : RawTask :=
  RawTask.mk kw.name kw.skills []

/-- The top-level input record: data.get of the Tasks and Peoples keys
(main.py lines 85 and 271) returns None when the key is missing. -/
structure InputData where
  tasks : Option (List TaskKw)
  peoples : Option (List PersonKw)
deriving DecidableEq

/-- Person.make_people of main.py line 271: a list comprehension over
data.get, so a missing Peoples key makes the comprehension iterate None,
which raises TypeError at once; this failure is modelled as none. -/
def makePeople (d : InputData) : Option (List RawPerson) :=
  d.peoples.map (fun l => l.map personInit)

/-- Task.make_tasks of main.py line 85, with the same failure mode for a
missing Tasks key. -/
def makeTasksOf (d : InputData) : Option (List RawTask) :=
  d.tasks.map (fun l => l.map taskInit)

/-! ### Predicates used by the invariants -/

/-- A well-formed recorded team: it covers the required set, all its members
are filtered candidates, and it is fixed by the name sort. -/
def GoodTeam (S : Finset String) (cands t : List Person) : Prop :=
  coverOf S t = S ∧ (∀ p ∈ t, p ∈ cands) ∧ sortByName t = t

/-- A well-formed accumulated team list: no duplicate entries, and every
entry is a well-formed team. -/
def GoodList (S : Finset String) (cands : List Person)
    (teams : List (List Person)) : Prop :=
  teams.Nodup ∧ ∀ t ∈ teams, GoodTeam S cands t

/-! ### Concrete example people used by the witnesses -/

def pA : Person := Person.mk "A" 1 ["a"]

def pU : Person := Person.mk "U" 1 ["a"]

def pB : Person := Person.mk "B" 2 ["b"]

def pP : Person := Person.mk "P" 1 ["a", "b"]

/-! ### Lemmas about the name comparison -/

theorem charListLE_total : ∀ as bs : List Char,
    charListLE as bs = true ∨ charListLE bs as = true := by
  intro as
  induction as with
  | nil =>
    intro bs
    left
    rfl
  | cons a as ih =>
    intro bs
    cases bs with
    | nil =>
      right
      rfl
    | cons b bs =>
      rcases lt_trichotomy a b with h | h | h
      · left
        simp [charListLE, h]
      · subst h
        rcases ih bs with h' | h'
        · left
          simp [charListLE, lt_irrefl, h']
        · right
          simp [charListLE, lt_irrefl, h']
      · right
        simp [charListLE, h]

theorem charListLE_trans : ∀ as bs cs : List Char,
    charListLE as bs = true → charListLE bs cs = true →
      charListLE as cs = true := by
  intro as
  induction as with
  | nil =>
    intro bs cs _ _
    rfl
  | cons a as ih =>
    intro bs cs h1 h2
    cases bs with
    | nil => simp [charListLE] at h1
    | cons b bs =>
      cases cs with
      | nil => simp [charListLE] at h2
      | cons c cs =>
        by_cases hab : a < b
        · by_cases hbc : b < c
          · simp [charListLE, lt_trans hab hbc]
          · by_cases hcb : c < b
            · simp [charListLE, hbc, hcb] at h2
            · have hb : b = c := le_antisymm (not_lt.mp hcb) (not_lt.mp hbc)
              subst hb
              simp [charListLE, hab]
        · by_cases hba : b < a
          · simp [charListLE, hab, hba] at h1
          · have ha : a = b := le_antisymm (not_lt.mp hba) (not_lt.mp hab)
            subst ha
            have h1' : charListLE as bs = true := by
              simpa [charListLE, lt_irrefl] using h1
            by_cases hbc : a < c
            · simp [charListLE, hbc]
            · by_cases hcb : c < a
              · simp [charListLE, hbc, hcb] at h2
              · have hb : a = c := le_antisymm (not_lt.mp hcb) (not_lt.mp hbc)
                subst hb
                have h2' : charListLE bs cs = true := by
                  simpa [charListLE, lt_irrefl] using h2
                simp [charListLE, lt_irrefl, ih bs cs h1' h2']

/-! ### Basic lemmas about the covered-skill set -/

theorem mem_foldl_cover (S : Finset String) (x : String) :
    ∀ (l : List Person) (a : Finset String),
      (x ∈ l.foldl (fun ts p => ts ∪ relSkills S p) a ↔
        x ∈ a ∨ ∃ p ∈ l, x ∈ relSkills S p) := by
  intro l
  induction l with
  | nil => simp
  | cons q l ih =>
    intro a
    simp only [List.foldl_cons, ih, Finset.mem_union, List.mem_cons]
    constructor
    · rintro (⟨h | h⟩ | ⟨p, hp, hx⟩)
      · exact Or.inl h
      · exact Or.inr ⟨q, Or.inl rfl, h⟩
      · exact Or.inr ⟨p, Or.inr hp, hx⟩
    · rintro (h | ⟨p, hp | hp, hx⟩)
      · exact Or.inl (Or.inl h)
      · exact Or.inl (Or.inr (hp ▸ hx))
      · exact Or.inr ⟨p, hp, hx⟩

theorem mem_coverOf (S : Finset String) (x : String) (l : List Person) :
    x ∈ coverOf S l ↔ ∃ p ∈ l, x ∈ relSkills S p := by
  unfold coverOf
  rw [mem_foldl_cover]
  simp

theorem coverOf_eq_of_perm (S : Finset String) {l l' : List Person}
    (h : l.Perm l') : coverOf S l = coverOf S l' := by
  ext x
  rw [mem_coverOf, mem_coverOf]
  constructor
  · rintro ⟨p, hp, hx⟩
    exact ⟨p, h.mem_iff.mp hp, hx⟩
  · rintro ⟨p, hp, hx⟩
    exact ⟨p, h.mem_iff.mpr hp, hx⟩

theorem coverOf_append_singleton (S : Finset String) (l : List Person)
    (p : Person) : coverOf S (l ++ [p]) = coverOf S l ∪ relSkills S p := by
  ext x
  rw [mem_coverOf, Finset.mem_union, mem_coverOf]
  constructor
  · rintro ⟨q, hq, hx⟩
    rcases List.mem_append.mp hq with h | h
    · exact Or.inl ⟨q, h, hx⟩
    · rcases List.mem_singleton.mp h with rfl
      exact Or.inr hx
  · rintro (⟨q, hq, hx⟩ | hx)
    · exact ⟨q, List.mem_append.mpr (Or.inl hq), hx⟩
    · exact ⟨p, List.mem_append.mpr (Or.inr (List.mem_singleton.mpr rfl)), hx⟩

theorem coverOf_erase_union (S : Finset String) {l : List Person} {r : Person}
    (h : r ∈ l) : coverOf S (l.erase r) ∪ relSkills S r = coverOf S l := by
  have hperm := List.perm_cons_erase h
  rw [coverOf_eq_of_perm S hperm]
  ext x
  rw [Finset.mem_union, mem_coverOf, mem_coverOf]
  constructor
  · rintro (⟨q, hq, hx⟩ | hx)
    · exact ⟨q, List.mem_cons_of_mem r hq, hx⟩
    · exact ⟨r, List.mem_cons_self r _, hx⟩
  · rintro ⟨q, hq, hx⟩
    rcases List.mem_cons.mp hq with rfl | hq
    · exact Or.inr hx
    · exact Or.inl ⟨q, hq, hx⟩

theorem teamSkills_inter (S : Finset String) (t : List Person) :
    teamSkills t ∩ S = coverOf S t := by
  have hmem : ∀ x, x ∈ teamSkills t ↔ ∃ p ∈ t, x ∈ p.skills.toFinset := by
    intro x
    unfold teamSkills
    have : ∀ (l : List Person) (a : Finset String),
        (x ∈ l.foldl (fun b p => b ∪ p.skills.toFinset) a ↔
          x ∈ a ∨ ∃ p ∈ l, x ∈ p.skills.toFinset) := by
      intro l
      induction l with
      | nil => simp
      | cons q l ih =>
        intro a
        simp only [List.foldl_cons, ih, Finset.mem_union, List.mem_cons]
        constructor
        · rintro (⟨h | h⟩ | ⟨p, hp, hx⟩)
          · exact Or.inl h
          · exact Or.inr ⟨q, Or.inl rfl, h⟩
          · exact Or.inr ⟨p, Or.inr hp, hx⟩
        · rintro (h | ⟨p, hp | hp, hx⟩)
          · exact Or.inl (Or.inl h)
          · exact Or.inl (Or.inr (hp ▸ hx))
          · exact Or.inr ⟨p, hp, hx⟩
    rw [this]
    simp
  ext x
  rw [Finset.mem_inter, hmem, mem_coverOf]
  unfold relSkills
  constructor
  · rintro ⟨⟨p, hp, hx⟩, hS⟩
    exact ⟨p, hp, Finset.mem_inter.mpr ⟨hx, hS⟩⟩
  · rintro ⟨p, hp, hx⟩
    rcases Finset.mem_inter.mp hx with ⟨h1, h2⟩
    exact ⟨⟨p, hp, h1⟩, h2⟩

/-! ### Lemmas about the two sorts and addUnique -/

theorem perm_sortByName (t : List Person) : (sortByName t).Perm t :=
  List.perm_insertionSort nameLE t

theorem sorted_sortByName (t : List Person) :
    List.Sorted nameLE (sortByName t) := by
  letI : IsTotal Person nameLE :=
    ⟨fun a b => charListLE_total a.name.data b.name.data⟩
  letI : IsTrans Person nameLE :=
    ⟨fun _ _ _ h h' => charListLE_trans _ _ _ h h'⟩
  exact List.sorted_insertionSort nameLE t

theorem sortByName_idem (t : List Person) :
    sortByName (sortByName t) = sortByName t :=
  List.Sorted.insertionSort_eq (sorted_sortByName t)

theorem perm_sortBySalary (ts : List (List Person)) :
    (sortBySalary ts).Perm ts :=
  List.perm_insertionSort costLE ts

theorem sorted_sortBySalary (ts : List (List Person)) :
    List.Sorted costLE (sortBySalary ts) :=
  List.sorted_insertionSort costLE ts

theorem mem_addUnique {teams : List (List Person)} {t u : List Person}
    (h : u ∈ addUnique teams t) : u ∈ teams ∨ u = t := by
  unfold addUnique at h
  by_cases hmem : t ∈ teams
  · rw [if_pos hmem] at h
    exact Or.inl h
  · rw [if_neg hmem] at h
    rcases List.mem_append.mp h with h | h
    · exact Or.inl h
    · exact Or.inr (List.mem_singleton.mp h)

theorem nodup_addUnique {teams : List (List Person)} {t : List Person}
    (h : teams.Nodup) : (addUnique teams t).Nodup := by
  unfold addUnique
  by_cases hmem : t ∈ teams
  · rw [if_pos hmem]
    exact h
  · rw [if_neg hmem]
    rw [List.nodup_append]
    exact ⟨h, List.nodup_singleton t, by simpa using hmem⟩

/-! ### Lemmas about the pruning step -/

theorem mem_removable (S : Finset String) :
    ∀ (pre post : List Person) (r : Person),
      r ∈ removable S pre post → r ∈ post := by
  intro pre post
  induction post generalizing pre with
  | nil =>
    intro r h
    simp [removable] at h
  | cons p rest ih =>
    intro r h
    unfold removable at h
    by_cases hc : coverOf S (pre ++ rest) = S
    · rw [if_pos hc] at h
      rcases List.mem_cons.mp h with rfl | h
      · exact List.mem_cons_self r rest
      · exact List.mem_cons_of_mem p (ih (pre ++ [p]) r h)
    · rw [if_neg hc] at h
      exact List.mem_cons_of_mem p (ih (pre ++ [p]) r h)

theorem pruneLoop_cover (S : Finset String) :
    ∀ (rs team : List Person), coverOf S team = S →
      coverOf S (pruneLoop S team rs) = S := by
  intro rs
  induction rs with
  | nil =>
    intro team h
    exact h
  | cons r rest ih =>
    intro team h
    unfold pruneLoop
    by_cases hr : r ∈ team
    · by_cases hc : coverOf S (team.erase r) = S
      · rw [if_neg (by simpa using hc)]
        exact ih _ hc
      · rw [if_pos hc]
        apply ih
        rw [coverOf_append_singleton, coverOf_erase_union S hr, h]
    · rw [List.erase_of_not_mem hr]
      rw [if_neg (by simpa using h)]
      exact ih _ h

theorem mem_pruneLoop (S : Finset String) :
    ∀ (rs team : List Person) (p : Person),
      p ∈ pruneLoop S team rs → p ∈ team ∨ p ∈ rs := by
  intro rs
  induction rs with
  | nil =>
    intro team p h
    exact Or.inl h
  | cons r rest ih =>
    intro team p h
    unfold pruneLoop at h
    by_cases hc : coverOf S (team.erase r) ≠ S
    · rw [if_pos hc] at h
      rcases ih _ p h with h' | h'
      · rcases List.mem_append.mp h' with h'' | h''
        · exact Or.inl (List.mem_of_mem_erase h'')
        · exact Or.inr (List.mem_cons.mpr (Or.inl (List.mem_singleton.mp h'')))
      · exact Or.inr (List.mem_cons_of_mem r h')
    · rw [if_neg hc] at h
      rcases ih _ p h with h' | h'
      · exact Or.inl (List.mem_of_mem_erase h')
      · exact Or.inr (List.mem_cons_of_mem r h')

theorem finalizeTeam_cover (S : Finset String) {team : List Person}
    (h : coverOf S team = S) : coverOf S (finalizeTeam S team) = S := by
  unfold finalizeTeam
  rw [coverOf_eq_of_perm S (perm_sortByName _)]
  exact pruneLoop_cover S _ _ h

theorem mem_finalizeTeam (S : Finset String) {team : List Person} {p : Person}
    (h : p ∈ finalizeTeam S team) : p ∈ team := by
  unfold finalizeTeam at h
  have h' := (perm_sortByName _).mem_iff.mp h
  rcases mem_pruneLoop S _ _ _ h' with h'' | h''
  · exact h''
  · exact mem_removable S [] team p h''

theorem finalizeTeam_sorted_fix (S : Finset String) (team : List Person) :
    sortByName (finalizeTeam S team) = finalizeTeam S team :=
  sortByName_idem _

/-! ### Lemmas about candidates and sole owners -/

theorem mem_candidates {skills : List String} {people : List Person}
    {p : Person} :
    p ∈ candidates skills people ↔
      p ∈ people ∧ skills.toFinset ∩ p.skills.toFinset ≠ ∅ := by
  unfold candidates
  rw [List.mem_filter]
  simp

theorem candidates_eq_nil {skills : List String} {people : List Person}
    (h : ∀ p ∈ people, skills.toFinset ∩ p.skills.toFinset = ∅) :
    candidates skills people = [] := by
  unfold candidates
  rw [List.filter_eq_nil_iff]
  intro p hp
  simp [h p hp]

theorem mem_firstDedupAux {s : String} :
    ∀ (l seen : List String), s ∈ firstDedupAux seen l ↔ s ∈ l ∧ s ∉ seen := by
  intro l
  induction l with
  | nil => simp [firstDedupAux]
  | cons a rest ih =>
    intro seen
    unfold firstDedupAux
    by_cases ha : a ∈ seen
    · rw [if_pos ha, ih]
      constructor
      · rintro ⟨h1, h2⟩
        exact ⟨List.mem_cons_of_mem a h1, h2⟩
      · rintro ⟨h1, h2⟩
        rcases List.mem_cons.mp h1 with rfl | h1
        · exact absurd ha h2
        · exact ⟨h1, h2⟩
    · rw [if_neg ha]
      constructor
      · intro h
        rcases List.mem_cons.mp h with rfl | h
        · exact ⟨List.mem_cons_self s rest, ha⟩
        · rcases (ih (a :: seen)).mp h with ⟨h1, h2⟩
          refine ⟨List.mem_cons_of_mem a h1, fun hs => h2 (List.mem_cons_of_mem a hs)⟩
      · rintro ⟨h1, h2⟩
        rcases List.mem_cons.mp h1 with rfl | h1
        · exact List.mem_cons_self s _
        · by_cases hsa : s = a
          · exact hsa ▸ List.mem_cons_self a _
          · exact List.mem_cons_of_mem a
              ((ih (a :: seen)).mpr ⟨h1, fun hs => by
                rcases List.mem_cons.mp hs with h | h
                · exact hsa h
                · exact h2 h⟩)

theorem mem_firstDedup {s : String} {l : List String} :
    s ∈ firstDedup l ↔ s ∈ l := by
  unfold firstDedup
  rw [mem_firstDedupAux]
  simp

theorem soleOf_eq_some {l : List Person} {u : Person} :
    soleOf l = some u ↔ l = [u] := by
  unfold soleOf
  match l with
  | [] => simp
  | [p] => simp
  | p :: q :: rest => simp

theorem mem_skillBucket {skills : List String} {cands : List Person}
    {s : String} {p : Person} (h : p ∈ skillBucket skills cands s) :
    p ∈ cands := by
  unfold skillBucket at h
  rcases List.mem_flatMap.mp h with ⟨q, hq, hp⟩
  by_cases hs : s ∈ q.skills
  · rw [if_pos hs] at hp
    rcases List.eq_of_mem_replicate hp with rfl
    exact hq
  · rw [if_neg hs] at hp
    exact absurd hp (List.not_mem_nil p)

theorem flatMap_bucket_zero (cands : List Person) (g : Person → Prop)
    [DecidablePred g] :
    cands.flatMap (fun p => if g p then List.replicate 0 p else []) = [] := by
  induction cands with
  | nil => rfl
  | cons q rest ih =>
    rw [List.flatMap_cons, ih]
    by_cases hq : g q
    · rw [if_pos hq]
      rfl
    · rw [if_neg hq]
      rfl

theorem flatMap_bucket_one (cands : List Person) (s : String) :
    cands.flatMap
        (fun p => if s ∈ p.skills then List.replicate 1 p else []) =
      cands.filter (fun p => decide (s ∈ p.skills)) := by
  induction cands with
  | nil => rfl
  | cons q rest ih =>
    rw [List.flatMap_cons, ih, List.filter_cons]
    by_cases hq : s ∈ q.skills
    · rw [if_pos hq]
      simp [hq]
    · rw [if_neg hq]
      simp [hq]

theorem flatMap_bucket_big (cands : List Person) (s : String) (n : Nat)
    (u : Person) :
    cands.flatMap
        (fun p => if s ∈ p.skills then List.replicate (n + 2) p else []) ≠
      [u] := by
  induction cands with
  | nil => simp
  | cons q rest ih =>
    rw [List.flatMap_cons]
    by_cases hq : s ∈ q.skills
    · rw [if_pos hq]
      intro h
      have hlen := congrArg List.length h
      rw [List.length_append, List.length_replicate] at hlen
      simp at hlen
      omega
    · rw [if_neg hq]
      simpa using ih

theorem skillBucket_eq_single {skills : List String} {cands : List Person}
    {s : String} {u : Person} :
    skillBucket skills cands s = [u] ↔
      skills.count s = 1 ∧
        cands.filter (fun p => decide (s ∈ p.skills)) = [u] := by
  unfold skillBucket
  rcases hn : skills.count s with _ | n
  · rw [flatMap_bucket_zero]
    constructor
    · intro h
      exact absurd h (by simp)
    · rintro ⟨h, _⟩
      exact absurd h (by simp)
  · rcases n with _ | m
    · rw [flatMap_bucket_one]
      constructor
      · intro h
        exact ⟨rfl, h⟩
      · rintro ⟨_, h⟩
        exact h
    · constructor
      · intro h
        exact absurd h (flatMap_bucket_big cands s m u)
      · rintro ⟨h, _⟩
        exact absurd h (by omega)

theorem mem_soleOwners {skills : List String} {cands : List Person}
    {u : Person} :
    u ∈ soleOwners skills cands ↔
      ∃ s, s ∈ skills ∧ skills.count s = 1 ∧
        cands.filter (fun p => decide (s ∈ p.skills)) = [u] := by
  unfold soleOwners
  rw [List.mem_filterMap]
  constructor
  · rintro ⟨s, hs, hsome⟩
    rcases skillBucket_eq_single.mp (soleOf_eq_some.mp hsome) with ⟨h1, h2⟩
    exact ⟨s, mem_firstDedup.mp hs, h1, h2⟩
  · rintro ⟨s, hs, h1, h2⟩
    exact ⟨s, mem_firstDedup.mpr hs,
      soleOf_eq_some.mpr (skillBucket_eq_single.mpr ⟨h1, h2⟩)⟩

theorem soleOwners_subset {skills : List String} {cands : List Person}
    {u : Person} (h : u ∈ soleOwners skills cands) : u ∈ cands := by
  unfold soleOwners at h
  rcases List.mem_filterMap.mp h with ⟨s, _, hsome⟩
  have hb : u ∈ skillBucket skills cands s := by
    rw [soleOf_eq_some.mp hsome]
    exact List.mem_singleton.mpr rfl
  exact mem_skillBucket hb

theorem initSeed_snd (S : Finset String) (uniques : List Person)
    (curr : Person) :
    (initSeed S uniques curr).2 = coverOf S (initSeed S uniques curr).1 :=
  rfl

theorem mem_initSeed_fst {S : Finset String} {uniques : List Person}
    {curr p : Person} :
    p ∈ (initSeed S uniques curr).1 ↔ p ∈ uniques ∨ p = curr := by
  unfold initSeed
  by_cases h : curr ∈ uniques
  · rw [if_pos h]
    constructor
    · exact fun hp => Or.inl hp
    · rintro (hp | rfl)
      · exact hp
      · exact h
  · rw [if_neg h]
    simp

theorem curr_mem_initSeed_fst {S : Finset String} {uniques : List Person}
    {curr : Person} : curr ∈ (initSeed S uniques curr).1 :=
  mem_initSeed_fst.mpr (Or.inr rfl)

/-! ### The main invariant

Every team recorded in the accumulated list covers the required skill set,
consists of filtered candidates only, and is fixed by the name sort; the
accumulated list has no duplicate entry. -/

theorem goodList_addUnique {S : Finset String} {cands : List Person}
    {teams : List (List Person)} {t : List Person}
    (h : GoodList S cands teams) (ht : GoodTeam S cands t) :
    GoodList S cands (addUnique teams t) := by
  refine ⟨nodup_addUnique h.1, ?_⟩
  intro u hu
  rcases mem_addUnique hu with hu | rfl
  · exact h.2 u hu
  · exact ht

theorem goodTeam_finalize {S : Finset String} {cands team : List Person}
    (hcov : coverOf S team = S) (hmem : ∀ p ∈ team, p ∈ cands) :
    GoodTeam S cands (finalizeTeam S team) :=
  ⟨finalizeTeam_cover S hcov,
   fun p hp => hmem p (mem_finalizeTeam S hp),
   finalizeTeam_sorted_fix S team⟩

theorem innerScan_good {S : Finset String} {cands : List Person}
    {curr : Person} {seedT : List Person} {seedTs : Finset String}
    (hseedTs : seedTs = coverOf S seedT)
    (hseedM : ∀ p ∈ seedT, p ∈ cands) :
    ∀ (rem team : List Person) (ts : Finset String)
      (teams : List (List Person)),
      (∀ o ∈ rem, o ∈ cands) →
      ts = coverOf S team →
      (∀ p ∈ team, p ∈ cands) →
      GoodList S cands teams →
      GoodList S cands (innerScan S curr seedT seedTs rem team ts teams) := by
  intro rem
  induction rem with
  | nil =>
    intro team ts teams _ _ _ hgood
    exact hgood
  | cons o rest ih =>
    intro team ts teams hrem hts hteam hgood
    have hocand : o ∈ cands := hrem o (List.mem_cons_self o rest)
    have hrem' : ∀ p ∈ rest, p ∈ cands :=
      fun p hp => hrem p (List.mem_cons_of_mem o hp)
    unfold innerScan
    by_cases hskip : o = curr ∨ o ∈ team
    · rw [if_pos hskip]
      exact ih team ts teams hrem' hts hteam hgood
    · rw [if_neg hskip]
      by_cases hsuper : relSkills S o = S
      · rw [if_pos hsuper]
        apply goodList_addUnique hgood
        refine ⟨?_, ?_, rfl⟩
        · show coverOf S [o] = S
          have : coverOf S [o] = relSkills S o := by
            ext x
            rw [mem_coverOf]
            simp
          rw [this, hsuper]
        · intro p hp
          rcases List.mem_singleton.mp hp with rfl
          exact hocand
      · rw [if_neg hsuper]
        by_cases hsub : relSkills S o ⊆ ts
        · rw [if_pos hsub]
          by_cases hfull : ts = S
          · rw [if_pos hfull]
            apply ih seedT seedTs _ hrem' hseedTs hseedM
            apply goodList_addUnique hgood
            exact goodTeam_finalize (by rw [← hts, hfull]) hteam
          · rw [if_neg hfull]
            exact ih team ts teams hrem' hts hteam hgood
        · rw [if_neg hsub]
          have hts' : ts ∪ relSkills S o = coverOf S (team ++ [o]) := by
            rw [coverOf_append_singleton, hts]
          have hteam' : ∀ p ∈ team ++ [o], p ∈ cands := by
            intro p hp
            rcases List.mem_append.mp hp with hp | hp
            · exact hteam p hp
            · rcases List.mem_singleton.mp hp with rfl
              exact hocand
          by_cases hfull : ts ∪ relSkills S o = S
          · rw [if_pos hfull]
            apply ih seedT seedTs _ hrem' hseedTs hseedM
            apply goodList_addUnique hgood
            exact goodTeam_finalize (by rw [← hts', hfull]) hteam'
          · rw [if_neg hfull]
            exact ih (team ++ [o]) (ts ∪ relSkills S o) teams hrem' hts' hteam' hgood

theorem processPerson_good {S : Finset String} {cands uniques : List Person}
    {teams : List (List Person)} {curr : Person}
    (hu : ∀ p ∈ uniques, p ∈ cands) (hc : curr ∈ cands)
    (hgood : GoodList S cands teams) :
    GoodList S cands (processPerson S cands uniques teams curr) := by
  unfold processPerson
  have hseedM : ∀ p ∈ (initSeed S uniques curr).1, p ∈ cands := by
    intro p hp
    rcases mem_initSeed_fst.mp hp with hp | rfl
    · exact hu p hp
    · exact hc
  by_cases hfull : (initSeed S uniques curr).2 = S
  · rw [if_pos hfull]
    apply goodList_addUnique hgood
    refine ⟨?_, ?_, sortByName_idem _⟩
    · rw [coverOf_eq_of_perm S (perm_sortByName _), ← initSeed_snd, hfull]
    · intro p hp
      exact hseedM p ((perm_sortByName _).mem_iff.mp hp)
  · rw [if_neg hfull]
    exact innerScan_good (initSeed_snd S uniques curr) hseedM cands
      (initSeed S uniques curr).1 (initSeed S uniques curr).2 teams
      (fun o ho => ho) (initSeed_snd S uniques curr) hseedM hgood

theorem foldl_preserve {α β : Type} (P : β → Prop) (f : β → α → β)
    (l : List α) (b : β) (hb : P b)
    (hstep : ∀ a ∈ l, ∀ b', P b' → P (f b' a)) : P (l.foldl f b) := by
  induction l generalizing b with
  | nil => exact hb
  | cons a rest ih =>
    rw [List.foldl_cons]
    exact ih (f b a) (hstep a (List.mem_cons_self a rest) b hb)
      (fun x hx b' hb' => hstep x (List.mem_cons_of_mem a hx) b' hb')

theorem rawTeams_good (skills : List String) (people : List Person) :
    GoodList skills.toFinset (candidates skills people)
      (rawTeams skills people) := by
  unfold rawTeams
  apply foldl_preserve
  · exact ⟨List.nodup_nil, fun t ht => absurd ht (List.not_mem_nil t)⟩
  · intro curr hcurr teams hteams
    exact processPerson_good (fun p hp => soleOwners_subset hp) hcurr hteams

theorem makeTeamsList_perm_rawTeams (skills : List String)
    (people : List Person) :
    (makeTeamsList skills people).Perm (rawTeams skills people) :=
  perm_sortBySalary _

theorem makeTeamsList_good {skills : List String} {people : List Person}
    {t : List Person} (h : t ∈ makeTeamsList skills people) :
    GoodTeam skills.toFinset (candidates skills people) t :=
  (rawTeams_good skills people).2 t
    ((makeTeamsList_perm_rawTeams skills people).mem_iff.mp h)

theorem rawTeams_nil_of_no_candidates {skills : List String}
    {people : List Person} (h : candidates skills people = []) :
    rawTeams skills people = [] := by
  unfold rawTeams
  rw [h]
  rfl

theorem makeTeamsList_nil_of_no_candidates {skills : List String}
    {people : List Person} (h : candidates skills people = []) :
    makeTeamsList skills people = [] := by
  unfold makeTeamsList
  rw [rawTeams_nil_of_no_candidates h]
  rfl

/-! ### Stability of the final cost sort

A stable sort leaves the relative order of equal-cost teams unchanged: for
every cost value, filtering the sorted list by that cost gives the same list
as filtering the input. -/

theorem filter_cost_orderedInsert (c : Int) (a : List Person) :
    ∀ m : List (List Person),
      (List.orderedInsert costLE a m).filter
          (fun t => decide (teamCost t = c)) =
        (if teamCost a = c then [a] else []) ++
          m.filter (fun t => decide (teamCost t = c)) := by
  intro m
  induction m with
  | nil =>
    by_cases ha : teamCost a = c <;>
      simp [List.orderedInsert, List.filter, ha]
  | cons y ys ih =>
    unfold List.orderedInsert
    by_cases hle : costLE a y
    · rw [if_pos hle]
      by_cases ha : teamCost a = c <;>
        simp [List.filter_cons, ha]
    · rw [if_neg hle]
      by_cases hy : teamCost y = c
      · by_cases ha : teamCost a = c
        · exfalso
          apply hle
          show teamCost a ≤ teamCost y
          rw [ha, hy]
        · simp [List.filter_cons, hy, ha, ih]
      · simp [List.filter_cons, hy, ih]

theorem filter_cost_sortBySalary (c : Int) :
    ∀ l : List (List Person),
      (sortBySalary l).filter (fun t => decide (teamCost t = c)) =
        l.filter (fun t => decide (teamCost t = c)) := by
  intro l
  induction l with
  | nil => rfl
  | cons a rest ih =>
    show (List.orderedInsert costLE a (sortBySalary rest)).filter _ = _
    rw [filter_cost_orderedInsert, ih]
    by_cases ha : teamCost a = c <;> simp [List.filter_cons, ha]

/-! ### The claims -/

/-- Claim C1: every team produced by make_teams covers the required skill
set: the union of the skills of the members, intersected with the required
set, equals the required set; and when the required set is empty, or no
roster member possesses any required skill, the team list is empty. -/
theorem claim_C1 (skills : List String) (people : List Person) :
    (∀ team ∈ makeTeamsList skills people,
      teamSkills team ∩ skills.toFinset = skills.toFinset) ∧
    (skills.toFinset = ∅ → makeTeamsList skills people = []) ∧
    ((∀ p ∈ people, p.skills.toFinset ∩ skills.toFinset = ∅) →
      makeTeamsList skills people = []) := by
  refine ⟨?_, ?_, ?_⟩
  · intro team hteam
    rw [teamSkills_inter]
    exact (makeTeamsList_good hteam).1
  · intro hS
    apply makeTeamsList_nil_of_no_candidates
    apply candidates_eq_nil
    intro p hp
    rw [hS]
    exact Finset.empty_inter _
  · intro hnone
    apply makeTeamsList_nil_of_no_candidates
    apply candidates_eq_nil
    intro p hp
    rw [Finset.inter_comm]
    exact hnone p hp

/-- Witness for C1 at concrete inputs: the single produced team covers the
required set, and a task whose skill no one possesses gets no team. -/
theorem claim_C1_witness :
    ([pA] ∈ makeTeamsList ["a"] [pA] ∧
      teamSkills [pA] ∩ (["a"] : List String).toFinset =
        (["a"] : List String).toFinset) ∧
    ((∀ p ∈ [pA], p.skills.toFinset ∩ (["b"] : List String).toFinset = ∅) ∧
      makeTeamsList ["b"] [pA] = []) :=
  ⟨⟨by decide, (claim_C1 ["a"] [pA]).1 [pA] (by decide)⟩,
   ⟨by decide, (claim_C1 ["b"] [pA]).2.2 (by decide)⟩⟩

/-- Claim C2: no two stored teams are equal as name-sorted sequences: a team
is only appended when no already-stored team has the same sorted member
sequence, and every stored team is kept in name-sorted form. -/
theorem claim_C2 (skills : List String) (people : List Person) :
    (makeTeamsList skills people).Pairwise
      (fun a b => sortByName a ≠ sortByName b) := by
  have hgood := rawTeams_good skills people
  have hraw : (rawTeams skills people).Pairwise
      (fun a b => sortByName a ≠ sortByName b) := by
    apply List.Pairwise.imp_of_mem ?_ hgood.1
    intro a b ha hb hne
    rw [(hgood.2 a ha).2.2, (hgood.2 b hb).2.2]
    exact hne
  exact ((makeTeamsList_perm_rawTeams skills people).pairwise_iff
    (fun h heq => h heq.symm)).mpr hraw

/-- Claim C3: the final team list is sorted ascending by total salary, and
teams of equal total salary keep the relative order in which the search
produced them (for each cost value, filtering the final list by that cost
yields exactly the filtered discovery-order list). -/
theorem claim_C3 (skills : List String) (people : List Person) :
    List.Sorted costLE (makeTeamsList skills people) ∧
    ∀ c : Int,
      (makeTeamsList skills people).filter
          (fun t => decide (teamCost t = c)) =
        (rawTeams skills people).filter
          (fun t => decide (teamCost t = c)) := by
  constructor
  · exact sorted_sortBySalary _
  · intro c
    exact filter_cost_sortBySalary c _

/-- Counterexample to C4 as stated: with required skills a and b and the
single person P possessing both, P is the sole possessor of each of the two
skills, so the unique-skill list is [P, P] and the seed for current
candidate P is [P, P] — the same person twice, not a deduplicated set; the
duplicated team even reaches the final output. -/
theorem claim_C4_counterexample :
    ¬ ((initSeed (["a", "b"] : List String).toFinset
        (soleOwners ["a", "b"] (candidates ["a", "b"] [pP])) pP).1.Nodup) ∧
    makeTeamsList ["a", "b"] [pP] = [[pP, pP]] := by
  constructor
  · decide
  · decide

/-- Claim C4 (amended): for every current candidate, the working team starts
as the unique-skill people list — which holds one entry per required skill
whose count bucket has length one, that is, per skill occurring exactly once
in the task skill list and possessed by exactly one filtered candidate, so a
person appears once per such skill rather than exactly once — followed by
the current candidate when not already present; hence its members are
exactly the unique-skill people together with the current candidate. -/
theorem claim_C4 (skills : List String) (people : List Person)
    (curr : Person) :
    (∀ p, p ∈ (initSeed skills.toFinset
        (soleOwners skills (candidates skills people)) curr).1 ↔
      p ∈ soleOwners skills (candidates skills people) ∨ p = curr) ∧
    (∀ u, u ∈ soleOwners skills (candidates skills people) ↔
      ∃ s, s ∈ skills ∧ skills.count s = 1 ∧
        (candidates skills people).filter
          (fun p => decide (s ∈ p.skills)) = [u]) :=
  ⟨fun _ => mem_initSeed_fst, fun _ => mem_soleOwners⟩

/-- Claim C5: when a required skill is possessed by exactly one person among
the filtered candidates, that person is a member of every produced team. -/
theorem claim_C5 (skills : List String) (people : List Person) (s : String)
    (u : Person) (hs : s ∈ skills)
    (huniq : (candidates skills people).filter
      (fun p => decide (s ∈ p.skills)) = [u]) :
    ∀ team ∈ makeTeamsList skills people, u ∈ team := by
  intro team hteam
  have hgood := makeTeamsList_good hteam
  have hsS : s ∈ skills.toFinset := List.mem_toFinset.mpr hs
  have hscov : s ∈ coverOf skills.toFinset team := by
    rw [hgood.1]
    exact hsS
  rcases (mem_coverOf _ s team).mp hscov with ⟨p, hp, hrel⟩
  have hpcand : p ∈ candidates skills people := hgood.2.1 p hp
  have hpskill : s ∈ p.skills :=
    List.mem_toFinset.mp (Finset.mem_inter.mp hrel).1
  have hpfilter : p ∈ (candidates skills people).filter
      (fun q => decide (s ∈ q.skills)) :=
    List.mem_filter.mpr ⟨hpcand, by simpa using hpskill⟩
  rw [huniq] at hpfilter
  rcases List.mem_singleton.mp hpfilter with rfl
  exact hp

/-- Witness for C5 at a concrete input: skill a is possessed only by U, and U
is a member of the unique produced team. -/
theorem claim_C5_witness :
    ("a" ∈ ["a", "b"] ∧
      (candidates ["a", "b"] [pU, pB]).filter
        (fun p => decide ("a" ∈ p.skills)) = [pU] ∧
      [pB, pU] ∈ makeTeamsList ["a", "b"] [pU, pB]) ∧
    pU ∈ [pB, pU] :=
  ⟨⟨by decide, by decide, by decide⟩,
   claim_C5 ["a", "b"] [pU, pB] "a" pU (by decide) (by decide)
     [pB, pU] (by decide)⟩

/-- Claim C6: the team builder is deterministic: two runs on equal inputs
(equal task name and required skills, equal rosters) produce identical
results.  The embedding of make_teams is a pure function of the task skills
and the roster — the source uses no randomness, time or ambient state, and
Python dict iteration order is the deterministic insertion order — so equal
inputs give equal outputs. -/
theorem claim_C6 (t1 t2 : Task) (ps1 ps2 : List Person)
    (hn : t1.name = t2.name) (hs : t1.skills = t2.skills)
    (hp : ps1 = ps2) :
    makeTeams t1 ps1 = makeTeams t2 ps2 := by
  unfold makeTeams
  rw [hn, hs, hp]

/-- Witness for C6 at a concrete input. -/
theorem claim_C6_witness :
    makeTeams (Task.mk "T" ["a"] []) [pA] =
      makeTeams (Task.mk "T" ["a"] []) [pA] :=
  claim_C6 (Task.mk "T" ["a"] []) (Task.mk "T" ["a"] []) [pA] [pA]
    rfl rfl rfl

/-- Claim C7: serialization produces, per team in stored order, the member
names in the stored (name-sorted) order and a price equal to the sum of the
member salaries; reading those fields back from the serialized record
reproduces exactly these name lists and prices. -/
theorem claim_C7 (t : Task) :
    (toDict t).name = t.name ∧
    (toDict t).teams.map TeamDict.peoples =
      t.teams.map (fun team => team.map Person.name) ∧
    (toDict t).teams.map TeamDict.price = t.teams.map teamCost := by
  refine ⟨rfl, ?_, ?_⟩ <;>
    simp [toDict, List.map_map, Function.comp]

/-- Counterexample to C8 as stated: a missing top-level Peoples or Tasks key
does not propagate as a null value — the batch constructors iterate the None
returned by data.get and fail immediately (TypeError), modelled as none. -/
theorem claim_C8_counterexample :
    makePeople (InputData.mk none none) = none ∧
    makeTasksOf (InputData.mk none none) = none :=
  ⟨rfl, rfl⟩

/-- Claim C8 (amended): entity constructors perform no validation — missing
per-entity fields yield absent (null) values stored verbatim in the entity,
and a fresh task starts with an empty team list; the batch constructors map
the entity constructor over the input list 1:1 when the top-level key is
present, but a missing top-level key makes the batch constructor itself fail
immediately rather than propagate a null value. -/
theorem claim_C8 :
    (∀ kw : PersonKw, (personInit kw).name = kw.name ∧
      (personInit kw).salary = kw.salary ∧
      (personInit kw).skills = kw.skills) ∧
    (∀ kw : TaskKw, (taskInit kw).name = kw.name ∧
      (taskInit kw).skills = kw.skills ∧ (taskInit kw).teams = []) ∧
    (∀ (d : InputData) (l : List PersonKw), d.peoples = some l →
      makePeople d = some (l.map personInit)) ∧
    (∀ d : InputData, d.peoples = none → makePeople d = none) ∧
    (∀ (d : InputData) (l : List TaskKw), d.tasks = some l →
      makeTasksOf d = some (l.map taskInit)) ∧
    (∀ d : InputData, d.tasks = none → makeTasksOf d = none) := by
  refine ⟨fun kw => ⟨rfl, rfl, rfl⟩, fun kw => ⟨rfl, rfl, rfl⟩,
    ?_, ?_, ?_, ?_⟩
  · intro d l h
    unfold makePeople
    rw [h]
    rfl
  · intro d h
    unfold makePeople
    rw [h]
    rfl
  · intro d l h
    unfold makeTasksOf
    rw [h]
    rfl
  · intro d h
    unfold makeTasksOf
    rw [h]
    rfl

/-- Witness for C8 at concrete inputs: an all-absent person record is
constructed without failure, and a present Peoples list is mapped 1:1. -/
theorem claim_C8_witness :
    ((personInit (PersonKw.mk none none none)).name = none ∧
      (personInit (PersonKw.mk none none none)).salary = none ∧
      (personInit (PersonKw.mk none none none)).skills = none) ∧
    makePeople (InputData.mk none (some [PersonKw.mk none none none])) =
      some [personInit (PersonKw.mk none none none)] :=
  ⟨claim_C8.1 (PersonKw.mk none none none),
   claim_C8.2.2.1 (InputData.mk none (some [PersonKw.mk none none none]))
     [PersonKw.mk none none none] rfl⟩

/-- Claim C9: make_teams modifies only the team list of the task: the task
name and skills are unchanged and the roster — the list and each Person in
it — is unchanged (the method body assigns only self.__teams and never
writes a Person attribute or a roster element). -/
theorem claim_C9 (t : Task) (ps : List Person) :
    (runMakeTeams (t, ps)).2 = ps ∧
    (runMakeTeams (t, ps)).1.name = t.name ∧
    (runMakeTeams (t, ps)).1.skills = t.skills :=
  ⟨rfl, rfl, rfl⟩

/-- Claim C10: a second invocation of make_teams completely replaces the
stored team list: the result computed over a task that already holds teams
from an earlier run equals the result computed over the original task, and
in general the produced teams depend only on the task skills and the roster
passed in, never on the previously stored teams. -/
theorem claim_C10 (t : Task) (ps0 ps : List Person) :
    (makeTeams (makeTeams t ps0) ps).teams = (makeTeams t ps).teams ∧
    ∀ t' : Task, t'.skills = t.skills →
      (makeTeams t' ps).teams = (makeTeams t ps).teams := by
  constructor
  · rfl
  · intro t' hs
    unfold makeTeams
    rw [hs]

/-- Witness for C10 at a concrete input: a task pre-loaded with a bogus team
list produces the same teams as the fresh task. -/
theorem claim_C10_witness :
    (makeTeams (makeTeams (Task.mk "T" ["a"] []) []) [pA]).teams =
      (makeTeams (Task.mk "T" ["a"] []) [pA]).teams ∧
    (makeTeams (Task.mk "T" ["a"] [[pB]]) [pA]).teams =
      (makeTeams (Task.mk "T" ["a"] []) [pA]).teams :=
  ⟨(claim_C10 (Task.mk "T" ["a"] []) [] [pA]).1,
   (claim_C10 (Task.mk "T" ["a"] []) [] [pA]).2
     (Task.mk "T" ["a"] [[pB]]) rfl⟩

end TeamAssign
